import Mathlib

/-!
Verification of the reverse-index search engine of the invest-lab repository
(`src/analyzer.py`, driver loop in `app.py`).

Python dictionaries are modelled as insertion-ordered association lists over
`String` keys; Python sets of strings are modelled as duplicate-free lists
(membership is the only property the engine relies on); Python floats
(timestamps, `match_degree`) are modelled as rationals `ℚ`.
-/

namespace InvestLab

/-! ## Python-dict model: insertion-ordered association lists -/

/-- Lookup of a key in an association list (first binding wins, as in a
Python dict, whose keys are unique). Mirrors `d[k]` / `d.get(k)`. -/
def dictGet {α : Type} (d : List (String × α)) (k : String) : Option α :=
  match d with
  | [] => none
  | (k₀, v₀) :: rest => if k₀ = k then some v₀ else dictGet rest k

/-- Mirrors `k in d` for a Python dict. -/
def dictHas {α : Type} (d : List (String × α)) (k : String) : Bool :=
  (dictGet d k).isSome

/-- Mirrors `d[k] = v`: replaces the value of an existing binding in place
(keeping its position, as Python dicts do) or appends a new binding. -/
def dictSet {α : Type} (d : List (String × α)) (k : String) (v : α) :
    List (String × α) :=
  match d with
  | [] => [(k, v)]
  | (k₀, v₀) :: rest =>
      if k₀ = k then (k, v) :: rest else (k₀, v₀) :: dictSet rest k v

/-- Mirrors `del d[k]`: drops the binding of `k`. -/
def dictDel {α : Type} (d : List (String × α)) (k : String) :
    List (String × α) :=
  d.filter (fun p => p.1 ≠ k)

/-! ## Data model -/

/-- One extracted holding of a fund: stock code and stock display name. -/
structure Stock where
  code : String
  name : String
deriving DecidableEq

/-- One row of a holdings data frame as the provider returns it. -/
structure HoldingRow where
  code : String
  name : String
  quarter : String
deriving DecidableEq

/-- A holdings data frame: its rows plus flags recording which of the
columns `股票代码`, `股票名称`, `季度` are present. -/
structure HoldingsFrame where
  rows : List HoldingRow
  hasCodeCol : Bool
  hasNameCol : Bool
  hasQuarterCol : Bool
deriving DecidableEq

/-- The four mutable fields of the reverse-index cache dict
(everything but `timestamp`). -/
structure IndexState where
  scanned_funds : List String
  index : List (String × List String)
  fund_quarters : List (String × String)
  fund_stocks : List (String × List String)
deriving DecidableEq

/-- The state the engine starts from when no valid persisted copy exists. -/
def emptyIndexState : IndexState := ⟨[], [], [], []⟩

/-- The fund list of a stock key: `index[k]`, the empty list when the key
is absent. -/
def indexFunds (index : List (String × List String)) (k : String) :
    List String :=
  (dictGet index k).getD []

/-- Model of Python `str.strip()`: drop whitespace from both ends. -/
def pyStrip (s : String) : String :=
  ⟨((s.data.dropWhile Char.isWhitespace).reverse.dropWhile
      Char.isWhitespace).reverse⟩

/-- Model of `pandas.Series.max` over quarter-label strings: the
lexicographically greatest element (labels like `2024年3季度`). -/
def seriesMax : List String → String
  | [] => ""
  | x :: xs => xs.foldl (fun a b => if a ≤ b then b else a) x

/-! ## The per-fund scan worker -/

/-- Model of `process_single_fund` (`src/analyzer.py` lines 81-131).  The
CSV read, the executor-run network fetch and every swallowed exception are
abstracted into `fetch`: `none` stands for "no readable cached file and the
fetch failed or raised"; a returned frame carries presence flags for the
required columns.  A failed, empty or column-deficient result yields
`(fund_code, [], "Unknown")`; otherwise the rows of the lexicographically
greatest quarter label are turned into the stock list. -/
def processSingleFund (fetch : String → Option HoldingsFrame)
    (fund_code : String) : String × List Stock × String :=
  match fetch fund_code with
  | none => (fund_code, [], "Unknown")
  | some df =>
      if df.rows = [] then (fund_code, [], "Unknown")
      else if ¬ (df.hasCodeCol && df.hasNameCol) then (fund_code, [], "Unknown")
      else
        let filtered :=
          if df.hasQuarterCol then
            let latest := seriesMax (df.rows.map (fun r => r.quarter))
            (df.rows.filter (fun r => r.quarter = latest), latest)
          else (df.rows, "Unknown")
        (fund_code, filtered.1.map (fun r => ⟨r.code, r.name⟩), filtered.2)

/-! ## The fold step of the index builder -/

/-- One iteration of the old-key cleanup loop (`analyzer.py` lines
174-178): remove `f_code` from `index[key]` when present, dropping the key
when its fund list becomes empty. -/
def removeOldKey (index : List (String × List String)) (f_code key : String) :
    List (String × List String) :=
  match dictGet index key with
  | none => index
  | some l =>
      if f_code ∈ l then
        let l₁ := l.erase f_code
        if l₁ = [] then dictDel index key else dictSet index key l₁
      else index

/-- The cleanup loop over a fund's previously contributed keys
(`analyzer.py` lines 172-178), one `removeOldKey` iteration per key. -/
def cleanupOld (index : List (String × List String)) (f_code : String) :
    List String → List (String × List String)
  | [] => index
  | key :: rest => cleanupOld (removeOldKey index f_code key) f_code rest

/-- One key insertion (`analyzer.py` lines 187-188 and 192-193): create the
key with an empty fund list when absent, then append `f_code` unless it is
already present. -/
def addKey (index : List (String × List String)) (f_code key : String) :
    List (String × List String) :=
  let l := (dictGet index key).getD []
  if f_code ∈ l then index else dictSet index key (l ++ [f_code])

/-- The new-stock insertion loop (`analyzer.py` lines 181-194): each
holding indexes the fund under its stock code and its stock name, and both
keys are collected into `new_keys` in loop order. -/
def addStocks (index : List (String × List String)) (f_code : String) :
    List Stock → List (String × List String) × List String
  | [] => (index, [])
  | s :: rest =>
      let r := addStocks (addKey (addKey index f_code s.code) f_code s.name)
        f_code rest
      (r.1, s.code :: s.name :: r.2)

/-- The key list a stock list contributes: code and name of every holding,
in loop order (the value of `new_keys` after the insertion loop). -/
def keysOf : List Stock → List String
  | [] => []
  | s :: rest => s.code :: s.name :: keysOf rest

/-- The per-fund fold step of `search_funds_by_stocks_async` (`analyzer.py`
lines 165-199): clean up the fund's old reverse entries when a forward
entry exists, insert the new keys, append the fund to `scanned_funds` and
replace its quarter and forward entries. -/
def applyFundResult (st : IndexState) (f_code : String) (stocks : List Stock)
    (quarter : String) : IndexState :=
  let index₁ :=
    match dictGet st.fund_stocks f_code with
    | some old_keys => cleanupOld st.index f_code old_keys
    | none => st.index
  let added := addStocks index₁ f_code stocks
  { scanned_funds := st.scanned_funds ++ [f_code]
    index := added.1
    fund_quarters := dictSet st.fund_quarters f_code quarter
    fund_stocks := dictSet st.fund_stocks f_code added.2 }

/-- Folding a whole batch of gathered per-fund results sequentially
(`analyzer.py` lines 165-201). -/
def foldResults (st : IndexState)
    (results : List (String × List Stock × String)) : IndexState :=
  results.foldl (fun s r => applyFundResult s r.1 r.2.1 r.2.2) st

/-- The unscanned-fund selection (`analyzer.py` lines 148-151):
`[c for c in filter_fund_codes if c not in set(scanned_funds)]`. -/
def unscannedCodes (scanned_funds filter_fund_codes : List String) :
    List String :=
  filter_fund_codes.filter (fun c => decide (c ∉ scanned_funds))

/-- Model of the scan-and-update phase of `search_funds_by_stocks_async`
(`analyzer.py` lines 146-209): scan every fund of the scope that is not in
`scanned_funds` (the async gather returns results in task order), fold all
results into the state, then deduplicate the scanned list as
`list(set(...))` does — membership-preserving; the model fixes the
first-occurrence order.  With no unscanned fund the state is untouched. -/
def scanBatch (fetch : String → Option HoldingsFrame) (st : IndexState)
    (filter_fund_codes : List String) : IndexState :=
  let unscanned := unscannedCodes st.scanned_funds filter_fund_codes
  if unscanned = [] then st
  else
    let st₁ := foldResults st (unscanned.map (processSingleFund fetch))
    { st₁ with scanned_funds := st₁.scanned_funds.dedup }

/-! ## The query path -/

/-- One row of the result frame built at `analyzer.py` lines 228-236.
`match_degree`, a Python float there, is modelled as an exact rational;
`matched_stocks`, a joined Python set there, is modelled as the
duplicate-free list of matched terms in hit order. -/
structure ResultRow where
  fund_code : String
  match_count : ℕ
  match_degree : ℚ
  matched_stocks : List String
  quarter : String
deriving DecidableEq

/-- The term normalization `[s.strip() for s in stock_inputs if s.strip()]`
(`analyzer.py` line 142 and line 265). -/
def normalizeInputs (stock_inputs : List String) : List String :=
  (stock_inputs.filter (fun s => decide (pyStrip s ≠ ""))).map pyStrip

/-- One fund-hit insertion (`analyzer.py` lines 224-225): ensure the fund
has an entry, then add the matched term to its set. -/
def addHit (hits : List (String × List String)) (f_code inp : String) :
    List (String × List String) :=
  let m := (dictGet hits f_code).getD []
  if inp ∈ m then hits else dictSet hits f_code (m ++ [inp])

/-- The hit-collection loop (`analyzer.py` lines 219-225): for every input
term present in the index, record it for every hit fund inside the scope. -/
def collectHits (inputs scope : List String)
    (index : List (String × List String)) : List (String × List String) :=
  inputs.foldl
    (fun hits inp =>
      match dictGet index inp with
      | none => hits
      | some hit_funds =>
          hit_funds.foldl
            (fun h f_code => if f_code ∈ scope then addHit h f_code inp else h)
            hits)
    []

/-- The row-building loop (`analyzer.py` lines 228-236). -/
def buildRows (inputs : List String) (hits : List (String × List String))
    (quarters : List (String × String)) : List ResultRow :=
  hits.foldl
    (fun acc p =>
      if p.2 ≠ [] then
        acc ++ [{ fund_code := p.1
                  match_count := p.2.length
                  match_degree := (p.2.length : ℚ) / (inputs.length : ℚ)
                  matched_stocks := p.2
                  quarter := (dictGet quarters p.1).getD "Unknown" }]
      else acc)
    []

/-- Descending comparison on `(match_count, match_degree)`, the sort key of
`sort_values(by=[match_count, match_degree], ascending=False)`. -/
def rowBefore (a b : ResultRow) : Bool :=
  if a.match_count = b.match_count then decide (b.match_degree ≤ a.match_degree)
  else decide (b.match_count ≤ a.match_count)

/-- Insertion of one element into a sorted list (model of the sorting the
result frame undergoes; pandas' unstable quicksort fixes no order between
ties, so any permutation respecting the key is a faithful model). -/
def insertRow {α : Type} (le : α → α → Bool) (x : α) : List α → List α
  | [] => [x]
  | y :: ys => if le x y then x :: y :: ys else y :: insertRow le x ys

/-- Insertion sort used to model `DataFrame.sort_values`. -/
def insertionSort {α : Type} (le : α → α → Bool) : List α → List α
  | [] => []
  | x :: xs => insertRow le x (insertionSort le xs)

/-- The query phase shared by `search_funds_by_stocks_async` (lines
211-243) and `query_reverse_index_direct` (lines 269-300): collect hits,
build rows, return the empty frame when nothing matched, else sort. -/
def queryCore (inputs scope : List String)
    (index : List (String × List String))
    (quarters : List (String × String)) : List ResultRow :=
  let rows := buildRows inputs (collectHits inputs scope index) quarters
  if rows = [] then [] else insertionSort rowBefore rows

/-- Model of `search_funds_by_stocks_async` (`analyzer.py` lines 133-243)
acting on the already-loaded snapshot state `cache`; returns the updated
state together with the result rows. -/
def searchFundsByStocksAsync (fetch : String → Option HoldingsFrame)
    (cache : IndexState) (stock_inputs filter_fund_codes : List String) :
    IndexState × List ResultRow :=
  let inputs := normalizeInputs stock_inputs
  if inputs = [] ∨ filter_fund_codes = [] then (cache, [])
  else
    let st := scanBatch fetch cache filter_fund_codes
    (st, queryCore inputs filter_fund_codes st.index st.fund_quarters)

/-- Model of `query_reverse_index_direct` (`analyzer.py` lines 260-300),
acting on the already-loaded snapshot state. -/
def queryReverseIndexDirect (cache : IndexState)
    (stock_inputs filter_fund_codes : List String) : List ResultRow :=
  let inputs := normalizeInputs stock_inputs
  if inputs = [] then []
  else queryCore inputs filter_fund_codes cache.index cache.fund_quarters

/-! ## Persistence and cache validity -/

/-- The atomic persisted unit: the four index fields plus the save
timestamp (a Python float, modelled as a rational). -/
structure IndexSnapshot where
  timestamp : ℚ
  scanned_funds : List String
  index : List (String × List String)
  fund_quarters : List (String × String)
  fund_stocks : List (String × List String)
deriving DecidableEq

/-- The fresh empty snapshot returned on every invalidation path. -/
def emptySnapshot : IndexSnapshot := ⟨0, [], [], [], []⟩

/-- A parsed persisted index document as `json.load` returns it: a legacy
file may lack the `fund_stocks` field, and `timestamp` is read with
`data.get(timestamp, 0)`, so both are optional here. -/
structure RawDoc where
  timestamp : Option ℚ
  scanned_funds : List String
  index : List (String × List String)
  fund_quarters : List (String × String)
  fund_stocks : Option (List (String × List String))
deriving DecidableEq

/-- Model of `load_reverse_index` (`analyzer.py` lines 16-48).
`fileExists` mirrors the `os.path.exists` check; `parsed = none` stands for
any exception while reading or JSON-decoding the file; `holdings_mtime` is
the modification time of the holdings directory (0 when it is absent).  A
missing `fund_stocks` field is defaulted to the empty dict, and the stored
data is dropped in favour of the fresh empty snapshot exactly when
`holdings_mtime > timestamp + 2.0`. -/
def loadReverseIndex (fileExists : Bool) (parsed : Option RawDoc)
    (holdings_mtime : ℚ) : IndexSnapshot :=
  if ¬fileExists then emptySnapshot
  else
    match parsed with
    | none => emptySnapshot
    | some d =>
        let cache_ts := d.timestamp.getD 0
        if holdings_mtime > cache_ts + 2 then emptySnapshot
        else
          { timestamp := cache_ts
            scanned_funds := d.scanned_funds
            index := d.index
            fund_quarters := d.fund_quarters
            fund_stocks := d.fund_stocks.getD [] }

/-- Model of `save_reverse_index` (`analyzer.py` lines 50-57): the whole
document is rewritten with a fresh timestamp. -/
def saveReverseIndex (now : ℚ) (snap : IndexSnapshot) : IndexSnapshot :=
  { snap with timestamp := now }

/-! ## The chunked driver loop -/

/-- Model of the `search_running` chunk loop of `app.py` (the module-level
driver around lines 701-726): the pending queue is consumed chunk by
chunk, each chunk passed as the scope of a fresh
`search_funds_by_stocks_async` call; the per-chunk save and reload
round-trip the four index fields while the snapshot stays valid, so only
the index-state evolution is modelled. -/
def chunkedScan (fetch : String → Option HoldingsFrame) (st : IndexState)
    (chunks : List (List String)) : IndexState :=
  chunks.foldl (fun s chunk => scanBatch fetch s chunk) st

/-- A sample provider used by concrete instantiations: fund `F1` holds one
stock in one quarter, every other fund fails. -/
def sampleFetch : String → Option HoldingsFrame := fun c =>
  if c = "F1" then
    some ⟨[⟨"600519", "贵州茅台", "2024年3季度"⟩], true, true, true⟩
  else none

/-- A sample loaded state: fund `F1` already scanned and indexed under the
key `600519`. -/
def sampleCache : IndexState :=
  ⟨["F1"], [("600519", ["F1"])], [("F1", "2024年3季度")],
    [("F1", ["600519"])]⟩


/-! ## Invariants -/

/-- Cross-consistency of a state: every forward-map entry is reflected at
each of its keys in the reverse map, and every reverse-map entry is
justified by a forward-map entry listing that key. -/
def crossConsistent (st : IndexState) : Prop :=
  (∀ f S, dictGet st.fund_stocks f = some S →
    ∀ k ∈ S, f ∈ indexFunds st.index k) ∧
  (∀ k f, f ∈ indexFunds st.index k →
    ∃ S, dictGet st.fund_stocks f = some S ∧ k ∈ S)

/-- Every fund list stored in the reverse map is duplicate-free. -/
def nodupVals (index : List (String × List String)) : Prop :=
  ∀ k, (indexFunds index k).Nodup

/-- The inductive invariant of the reverse index: cross-consistency plus
duplicate-free fund lists. -/
def invariant (st : IndexState) : Prop :=
  crossConsistent st ∧ nodupVals st.index

/-- Agreement of two states on everything except `scanned_funds` (the
only field the per-batch `list(set(...))` deduplication reorders). -/
def coreEq (a b : IndexState) : Prop :=
  a.index = b.index ∧ a.fund_quarters = b.fund_quarters ∧
    a.fund_stocks = b.fund_stocks

/-- Well-formedness of the hit accumulator of the query loop: every
recorded match set is non-empty, duplicate-free and drawn from the
normalized inputs. -/
def hitsWF (inputs : List String) (hits : List (String × List String)) :
    Prop :=
  ∀ p ∈ hits, p.2 ≠ [] ∧ p.2.Nodup ∧ ∀ x ∈ p.2, x ∈ inputs

/-- The degree contract of one result row with respect to the normalized
input terms. -/
def degreeOk (stock_inputs : List String) (r : ResultRow) : Prop :=
  r.match_degree =
      (r.match_count : ℚ) / ((normalizeInputs stock_inputs).length : ℚ) ∧
    0 < r.match_degree ∧ r.match_degree ≤ 1 ∧ 0 < r.match_count

/-! ## Basic lemmas -/

theorem dictGet_set_self {α : Type} (d : List (String × α)) (k : String) (v : α) :
    dictGet (dictSet d k v) k = some v := by
  induction d with
  | nil => simp [dictGet, dictSet]
  | cons p rest ih =>
      obtain ⟨k₀, v₀⟩ := p
      by_cases h : k₀ = k
      · simp [dictGet, dictSet, h]
      · simp [dictGet, dictSet, h, ih]

theorem dictGet_set_ne {α : Type} (d : List (String × α)) (k k₁ : String) (v : α)
    (h : k ≠ k₁) : dictGet (dictSet d k v) k₁ = dictGet d k₁ := by
  induction d with
  | nil => simp [dictGet, dictSet, h]
  | cons p rest ih =>
      obtain ⟨k₀, v₀⟩ := p
      by_cases h₀ : k₀ = k
      · subst h₀
        simp [dictGet, dictSet, h]
      · simp [dictGet, dictSet, h₀, ih]

theorem dictGet_del_self {α : Type} (d : List (String × α)) (k : String) :
    dictGet (dictDel d k) k = none := by
  induction d with
  | nil => simp [dictGet, dictDel]
  | cons p rest ih =>
      obtain ⟨k₀, v₀⟩ := p
      by_cases h : k₀ = k
      · simpa [dictDel, h] using ih
      · simpa [dictDel, dictGet, h] using ih

theorem dictDel_cons {α : Type} (k₀ : String) (v₀ : α)
    (rest : List (String × α)) (k : String) :
    dictDel ((k₀, v₀) :: rest) k =
      if k₀ = k then dictDel rest k else (k₀, v₀) :: dictDel rest k := by
  by_cases h : k₀ = k <;> simp [dictDel, List.filter_cons, h]

theorem dictGet_del_ne {α : Type} (d : List (String × α)) (k k₁ : String)
    (h : k ≠ k₁) : dictGet (dictDel d k) k₁ = dictGet d k₁ := by
  induction d with
  | nil => simp [dictGet, dictDel]
  | cons p rest ih =>
      obtain ⟨k₀, v₀⟩ := p
      rw [dictDel_cons]
      by_cases h₀ : k₀ = k
      · rw [if_pos h₀, ih]
        subst h₀
        simp [dictGet, h]
      · rw [if_neg h₀]
        by_cases h₁ : k₀ = k₁ <;> simp [dictGet, h₁, ih]

theorem dictGet_mem {α : Type} {d : List (String × α)} {k : String} {v : α}
    (h : dictGet d k = some v) : (k, v) ∈ d := by
  induction d with
  | nil => simp [dictGet] at h
  | cons p rest ih =>
      obtain ⟨k₀, v₀⟩ := p
      by_cases h₀ : k₀ = k
      · subst h₀
        simp [dictGet] at h
        simp [h]
      · simp [dictGet, h₀] at h
        exact List.mem_cons_of_mem _ (ih h)

theorem mem_dictSet {α : Type} {d : List (String × α)} {k : String} {v : α}
    {p : String × α} (h : p ∈ dictSet d k v) : p = (k, v) ∨ p ∈ d := by
  induction d with
  | nil => simpa [dictSet] using h
  | cons q rest ih =>
      obtain ⟨k₀, v₀⟩ := q
      by_cases h₀ : k₀ = k
      · simp [dictSet, h₀] at h
        rcases h with h | h
        · exact Or.inl h
        · exact Or.inr (List.mem_cons_of_mem _ h)
      · simp [dictSet, h₀] at h
        rcases h with h | h
        · exact Or.inr (by simp [h])
        · rcases ih h with h₁ | h₁
          · exact Or.inl h₁
          · exact Or.inr (List.mem_cons_of_mem _ h₁)


theorem mem_unscannedCodes {scanned filter_codes : List String} {c : String} :
    c ∈ unscannedCodes scanned filter_codes ↔
      c ∈ filter_codes ∧ c ∉ scanned := by
  simp [unscannedCodes, List.mem_filter]

theorem processSingleFund_fst (fetch : String → Option HoldingsFrame)
    (c : String) : (processSingleFund fetch c).1 = c := by
  unfold processSingleFund
  cases fetch c with
  | none => rfl
  | some df =>
      by_cases h₁ : df.rows = [] <;> by_cases h₂ : df.hasCodeCol && df.hasNameCol <;>
        simp [h₁, h₂]

/-! ## Lemmas on the cleanup loop -/

theorem removeOldKey_get_ne (ix : List (String × List String))
    (f key k : String) (h : k ≠ key) :
    dictGet (removeOldKey ix f key) k = dictGet ix k := by
  unfold removeOldKey
  cases hg : dictGet ix key with
  | none => rfl
  | some l =>
      by_cases hf : f ∈ l
      · by_cases he : l.erase f = []
        · simp [hf, he, dictGet_del_ne ix key k (Ne.symm h)]
        · simp [hf, he, dictGet_set_ne ix key k _ (Ne.symm h)]
      · simp [hf]

theorem removeOldKey_count_self (ix : List (String × List String))
    (f key : String) :
    (indexFunds ix key).count f - 1 ≤
      (indexFunds (removeOldKey ix f key) key).count f ∧
    (indexFunds (removeOldKey ix f key) key).count f ≤
      (indexFunds ix key).count f := by
  unfold removeOldKey indexFunds
  cases hg : dictGet ix key with
  | none => simp [hg]
  | some l =>
      by_cases hf : f ∈ l
      · by_cases he : l.erase f = []
        · have hc : l.count f - 1 = 0 := by
            rw [← List.count_erase_self, he, List.count_nil]
          simp [hf, he, dictGet_del_self, hc, hg]
        · simp [hf, he, dictGet_set_self, List.count_erase_self, hg]
      · simp [hf, hg]

theorem removeOldKey_count_other (ix : List (String × List String))
    (f key g : String) (hg : g ≠ f) (k : String) :
    (indexFunds (removeOldKey ix f key) k).count g =
      (indexFunds ix k).count g := by
  by_cases hk : k = key
  · subst hk
    unfold removeOldKey indexFunds
    cases hget : dictGet ix k with
    | none => simp [hget]
    | some l =>
        by_cases hf : f ∈ l
        · by_cases he : l.erase f = []
          · have hz : l.count g = 0 := by
              rw [← List.count_erase_of_ne hg l, he, List.count_nil]
            simp [hf, he, dictGet_del_self, hz, hget]
          · simp [hf, he, dictGet_set_self, List.count_erase_of_ne hg, hget]
        · simp [hf, hget]
  · unfold indexFunds
    rw [removeOldKey_get_ne ix f key k hk]

theorem removeOldKey_count_le (ix : List (String × List String))
    (f key k : String) :
    (indexFunds (removeOldKey ix f key) k).count f ≤
      (indexFunds ix k).count f := by
  by_cases hk : k = key
  · subst hk
    exact (removeOldKey_count_self ix f k).2
  · unfold indexFunds
    rw [removeOldKey_get_ne ix f key k hk]

theorem removeOldKey_count_ge (ix : List (String × List String))
    (f key k : String) :
    (indexFunds ix k).count f - (if k = key then 1 else 0) ≤
      (indexFunds (removeOldKey ix f key) k).count f := by
  by_cases hk : k = key
  · subst hk
    simpa using (removeOldKey_count_self ix f k).1
  · unfold indexFunds
    rw [removeOldKey_get_ne ix f key k hk]
    simp [hk]

theorem cleanupOld_count_other (f g : String) (hg : g ≠ f)
    (old_keys : List String) :
    ∀ ix k, (indexFunds (cleanupOld ix f old_keys) k).count g =
      (indexFunds ix k).count g := by
  induction old_keys with
  | nil => intro ix k; rfl
  | cons key rest ih =>
      intro ix k
      simp only [cleanupOld]
      rw [ih, removeOldKey_count_other ix f key g hg k]

theorem cleanupOld_count_le (f : String) (old_keys : List String) :
    ∀ ix k, (indexFunds (cleanupOld ix f old_keys) k).count f ≤
      (indexFunds ix k).count f := by
  induction old_keys with
  | nil => intro ix k; simp [cleanupOld]
  | cons key rest ih =>
      intro ix k
      simp only [cleanupOld]
      exact le_trans (ih _ k) (removeOldKey_count_le ix f key k)

theorem cleanupOld_count_ge (f : String) (old_keys : List String) :
    ∀ ix k, (indexFunds ix k).count f - old_keys.count k ≤
      (indexFunds (cleanupOld ix f old_keys) k).count f := by
  induction old_keys with
  | nil => intro ix k; simp [cleanupOld]
  | cons key rest ih =>
      intro ix k
      simp only [cleanupOld]
      have h₁ := removeOldKey_count_ge ix f key k
      have h₂ := ih (removeOldKey ix f key) k
      by_cases hk : k = key
      · subst hk
        simp at h₁
        have h₃ : (k :: rest).count k = rest.count k + 1 := by
          simp [List.count_cons]
        rw [h₃]
        omega
      · simp only [if_neg hk] at h₁
        have h₃ : (key :: rest).count k = rest.count k := by
          simp [List.count_cons, hk]
        omega

/-! ## Claim C9: cleanup safety under degenerate forward-map entries -/

/-- C9: the old-key removal loop is total and side-effect-bounded.  For
every `old_keys` list — duplicate keys, keys absent from the index, keys
whose fund list does not contain `f` included — the loop never changes any
other fund's occurrence count under any key, never increases the count of
`f`, and removes `f` at most once per key occurrence; being a total
function, the model raises no error on any such input. -/
theorem cleanup_loop_safety (index : List (String × List String))
    (f : String) (old_keys : List String) :
    (∀ g, g ≠ f → ∀ k,
      (indexFunds (cleanupOld index f old_keys) k).count g =
        (indexFunds index k).count g) ∧
    (∀ k, (indexFunds (cleanupOld index f old_keys) k).count f ≤
        (indexFunds index k).count f) ∧
    (∀ k, (indexFunds index k).count f - old_keys.count k ≤
        (indexFunds (cleanupOld index f old_keys) k).count f) :=
  ⟨fun g hg k => cleanupOld_count_other f g hg old_keys index k,
   fun k => cleanupOld_count_le f old_keys index k,
   fun k => cleanupOld_count_ge f old_keys index k⟩

/-! ## Membership and duplicate-freedom lemmas for the fold step -/

theorem cleanupOld_mem_other {f g : String} (hg : g ≠ f)
    (old_keys : List String) (ix : List (String × List String)) (k : String) :
    g ∈ indexFunds (cleanupOld ix f old_keys) k ↔ g ∈ indexFunds ix k := by
  rw [← List.count_pos_iff, ← List.count_pos_iff,
    cleanupOld_count_other f g hg old_keys ix k]

theorem cleanupOld_mem_self {f : String} {old_keys : List String}
    {ix : List (String × List String)} {k : String}
    (h : f ∈ indexFunds (cleanupOld ix f old_keys) k) :
    f ∈ indexFunds ix k := by
  rw [← List.count_pos_iff] at h ⊢
  exact lt_of_lt_of_le h (cleanupOld_count_le f old_keys ix k)

theorem cleanupOld_not_mem {f : String} {old_keys : List String}
    {ix : List (String × List String)} {k : String}
    (h : f ∉ indexFunds ix k) :
    f ∉ indexFunds (cleanupOld ix f old_keys) k :=
  fun hc => h (cleanupOld_mem_self hc)

theorem cleanupOld_get_of_not_mem {f : String} {old_keys : List String}
    {k : String} (hk : k ∉ old_keys) (ix : List (String × List String)) :
    dictGet (cleanupOld ix f old_keys) k = dictGet ix k := by
  induction old_keys generalizing ix with
  | nil => rfl
  | cons key rest ih =>
      have hne : k ≠ key := fun h => hk (h ▸ List.mem_cons_self key rest)
      simp only [cleanupOld]
      rw [ih (fun h => hk (List.mem_cons_of_mem key h)),
        removeOldKey_get_ne ix f key k hne]

theorem removeOldKey_nodup {f key : String}
    {ix : List (String × List String)} (h : nodupVals ix) :
    nodupVals (removeOldKey ix f key) := by
  intro k
  by_cases hk : k = key
  · subst hk
    unfold removeOldKey
    cases hg : dictGet ix k with
    | none => exact h k
    | some l =>
        by_cases hf : f ∈ l
        · by_cases he : l.erase f = []
          · simp [hf, he, indexFunds, dictGet_del_self]
          · have hnd : l.Nodup := by
              have h₀ := h k
              unfold indexFunds at h₀
              rw [hg] at h₀
              exact h₀
            have h₁ : (l.erase f).Nodup := hnd.erase f
            simpa [hf, he, indexFunds, dictGet_set_self] using h₁
        · simpa [hf, indexFunds, hg] using h k
  · unfold indexFunds
    rw [removeOldKey_get_ne ix f key k hk]
    exact h k

theorem cleanupOld_nodup {f : String} (old_keys : List String)
    {ix : List (String × List String)} (h : nodupVals ix) :
    nodupVals (cleanupOld ix f old_keys) := by
  induction old_keys generalizing ix with
  | nil => exact h
  | cons key rest ih => exact ih (removeOldKey_nodup h)

theorem removeOldKey_not_mem_self {f key : String}
    {ix : List (String × List String)}
    (h : (indexFunds ix key).Nodup) :
    f ∉ indexFunds (removeOldKey ix f key) key := by
  unfold removeOldKey
  cases hg : dictGet ix key with
  | none => simp [indexFunds, hg]
  | some l =>
      unfold indexFunds at h
      rw [hg, Option.getD_some] at h
      by_cases hf : f ∈ l
      · by_cases he : l.erase f = []
        · simp [hf, he, indexFunds, dictGet_del_self]
        · have h₁ : f ∉ l.erase f := h.not_mem_erase
          simp [hf, he, indexFunds, dictGet_set_self]
          exact h₁
      · simp [hf, indexFunds, hg]

theorem cleanupOld_not_mem_self {f : String} (old_keys : List String) :
    ∀ (ix : List (String × List String)) (k : String),
      (indexFunds ix k).Nodup → k ∈ old_keys →
      f ∉ indexFunds (cleanupOld ix f old_keys) k := by
  induction old_keys with
  | nil => intro ix k _ hk; exact absurd hk (List.not_mem_nil k)
  | cons key rest ih =>
      intro ix k hnd hk
      simp only [cleanupOld]
      by_cases hkey : k = key
      · subst hkey
        exact cleanupOld_not_mem (removeOldKey_not_mem_self hnd)
      · have hk₁ : k ∈ rest := by
          rcases List.mem_cons.mp hk with h | h
          · exact absurd h hkey
          · exact h
        have hnd₁ : (indexFunds (removeOldKey ix f key) k).Nodup := by
          rw [indexFunds, removeOldKey_get_ne ix f key k hkey]
          exact hnd
        exact ih (removeOldKey ix f key) k hnd₁ hk₁

theorem addKey_get_ne {key k : String} (hk : k ≠ key)
    (ix : List (String × List String)) (f : String) :
    dictGet (addKey ix f key) k = dictGet ix k := by
  unfold addKey
  by_cases hf : f ∈ (dictGet ix key).getD []
  · simp [hf]
  · simp [hf, dictGet_set_ne ix key k _ (Ne.symm hk)]

theorem addKey_self (ix : List (String × List String)) (f key : String) :
    f ∈ indexFunds (addKey ix f key) key := by
  unfold addKey
  by_cases hf : f ∈ (dictGet ix key).getD []
  · simp [hf, indexFunds]
  · simp [hf, indexFunds, dictGet_set_self]

theorem addKey_mem_other {f g : String} (hg : g ≠ f)
    (ix : List (String × List String)) (key k : String) :
    g ∈ indexFunds (addKey ix f key) k ↔ g ∈ indexFunds ix k := by
  by_cases hk : k = key
  · subst hk
    unfold addKey
    by_cases hf : f ∈ (dictGet ix k).getD []
    · simp [hf]
    · simp [hf, indexFunds, dictGet_set_self, hg]
  · unfold indexFunds
    rw [addKey_get_ne hk ix f]

theorem addKey_mem_self_iff (ix : List (String × List String))
    (f key k : String) :
    f ∈ indexFunds (addKey ix f key) k ↔ k = key ∨ f ∈ indexFunds ix k := by
  by_cases hk : k = key
  · subst hk
    simp [addKey_self ix f k]
  · unfold indexFunds
    rw [addKey_get_ne hk ix f]
    simp [hk]

theorem addKey_nodup {ix : List (String × List String)} {f key : String}
    (h : nodupVals ix) : nodupVals (addKey ix f key) := by
  intro k
  by_cases hk : k = key
  · subst hk
    by_cases hf : f ∈ (dictGet ix k).getD []
    · simpa [addKey, hf] using h k
    · have hnd : ((dictGet ix k).getD []).Nodup := h k
      have h₁ : (((dictGet ix k).getD []) ++ [f]).Nodup := by
        simp [List.nodup_append, hnd, hf]
      simpa [addKey, hf, indexFunds, dictGet_set_self] using h₁
  · unfold indexFunds
    rw [addKey_get_ne hk ix f]
    exact h k

theorem addStocks_snd (f : String) (stocks : List Stock) :
    ∀ ix, (addStocks ix f stocks).2 = keysOf stocks := by
  induction stocks with
  | nil => intro ix; rfl
  | cons s rest ih =>
      intro ix
      simp only [addStocks, keysOf, ih]

theorem addStocks_mem_other {f g : String} (hg : g ≠ f)
    (stocks : List Stock) :
    ∀ (ix : List (String × List String)) (k : String),
      g ∈ indexFunds (addStocks ix f stocks).1 k ↔ g ∈ indexFunds ix k := by
  induction stocks with
  | nil => intro ix k; exact Iff.rfl
  | cons s rest ih =>
      intro ix k
      simp only [addStocks]
      rw [ih, addKey_mem_other hg, addKey_mem_other hg]

theorem addStocks_mem_self_iff (f : String) (stocks : List Stock) :
    ∀ (ix : List (String × List String)) (k : String),
      f ∈ indexFunds (addStocks ix f stocks).1 k ↔
        k ∈ keysOf stocks ∨ f ∈ indexFunds ix k := by
  induction stocks with
  | nil => intro ix k; simp [keysOf, addStocks]
  | cons s rest ih =>
      intro ix k
      simp only [addStocks, keysOf]
      rw [ih, addKey_mem_self_iff, addKey_mem_self_iff]
      simp [List.mem_cons]
      tauto

theorem addStocks_nodup {f : String} (stocks : List Stock) :
    ∀ {ix : List (String × List String)}, nodupVals ix →
      nodupVals (addStocks ix f stocks).1 := by
  induction stocks with
  | nil => intro ix h; exact h
  | cons s rest ih =>
      intro ix h
      simp only [addStocks]
      exact ih (addKey_nodup (addKey_nodup h))

theorem dictSet_set_same {α : Type} (d : List (String × α)) (k : String)
    (v : α) : dictSet (dictSet d k v) k v = dictSet d k v := by
  induction d with
  | nil => simp [dictSet]
  | cons p rest ih =>
      obtain ⟨k₀, v₀⟩ := p
      by_cases h : k₀ = k
      · simp [dictSet, h]
      · simp [dictSet, h, ih]

/-! ## Claim C6: provider-failure containment -/

theorem processSingleFund_failed (fetch : String → Option HoldingsFrame)
    (f : String)
    (h : fetch f = none ∨ ∃ df, fetch f = some df ∧
      (df.rows = [] ∨ df.hasCodeCol = false ∨ df.hasNameCol = false)) :
    processSingleFund fetch f = (f, [], "Unknown") := by
  rcases h with h | ⟨df, hdf, hc⟩
  · simp [processSingleFund, h]
  · rcases hc with hc | hc | hc
    · simp [processSingleFund, hdf, hc]
    · by_cases hr : df.rows = [] <;> simp [processSingleFund, hdf, hc, hr]
    · by_cases hr : df.rows = [] <;> simp [processSingleFund, hdf, hc, hr]

theorem applyFundResult_scanned (st : IndexState) (c : String)
    (stocks : List Stock) (q : String) :
    (applyFundResult st c stocks q).scanned_funds =
      st.scanned_funds ++ [c] := by
  cases hold : dictGet st.fund_stocks c <;> simp [applyFundResult, hold]

theorem applyFundResult_fund_stocks_ne {c f : String} (hg : c ≠ f)
    (st : IndexState) (stocks : List Stock) (q : String) :
    dictGet (applyFundResult st c stocks q).fund_stocks f =
      dictGet st.fund_stocks f := by
  cases hold : dictGet st.fund_stocks c <;>
    simp [applyFundResult, hold, dictGet_set_ne st.fund_stocks c f _ hg]

theorem foldResults_scanned (results : List (String × List Stock × String)) :
    ∀ st, (foldResults st results).scanned_funds =
      st.scanned_funds ++ results.map (fun r => r.1) := by
  induction results with
  | nil => intro st; simp [foldResults]
  | cons r rest ih =>
      intro st
      show (foldResults (applyFundResult st r.1 r.2.1 r.2.2) rest).scanned_funds = _
      rw [ih, applyFundResult_scanned]
      simp

theorem foldResults_fund_stocks_of_not {f : String}
    (results : List (String × List Stock × String)) :
    ∀ st, (∀ r ∈ results, r.1 ≠ f) →
      dictGet (foldResults st results).fund_stocks f =
        dictGet st.fund_stocks f := by
  induction results with
  | nil => intro st _; rfl
  | cons r rest ih =>
      intro st h
      show dictGet (foldResults (applyFundResult st r.1 r.2.1 r.2.2)
        rest).fund_stocks f = _
      rw [ih _ (fun r₀ h₀ => h r₀ (List.mem_cons_of_mem r h₀)),
        applyFundResult_fund_stocks_ne (h r (List.mem_cons_self r rest))]

theorem foldResults_fund_stocks_empty {f : String}
    (results : List (String × List Stock × String)) :
    ∀ st, (∀ r ∈ results, r.1 = f → r.2.1 = []) →
      (∃ r ∈ results, r.1 = f) →
      dictGet (foldResults st results).fund_stocks f = some [] := by
  induction results with
  | nil => intro st _ hex; simp at hex
  | cons r rest ih =>
      intro st hall hex
      by_cases hrest : ∃ r₀ ∈ rest, r₀.1 = f
      · exact ih _ (fun r₀ h₀ => hall r₀ (List.mem_cons_of_mem r h₀)) hrest
      · have hr : r.1 = f := by
          rcases hex with ⟨r₀, hr₀, hf₀⟩
          rcases List.mem_cons.mp hr₀ with h | h
          · exact h ▸ hf₀
          · exact absurd ⟨r₀, h, hf₀⟩ hrest
        have hstocks : r.2.1 = [] := hall r (List.mem_cons_self r rest) hr
        have hnone : ∀ r₀ ∈ rest, r₀.1 ≠ f := by
          intro r₀ h₀ hf₀
          exact hrest ⟨r₀, h₀, hf₀⟩
        show dictGet (foldResults (applyFundResult st r.1 r.2.1 r.2.2)
          rest).fund_stocks f = some []
        rw [foldResults_fund_stocks_of_not rest _ hnone, hr, hstocks]
        cases hold : dictGet st.fund_stocks f <;>
          simp [applyFundResult, hold, addStocks, dictGet_set_self]

theorem applyFundResult_mem_index {st : IndexState} {c g k : String}
    {stocks : List Stock} {q : String}
    (h : g ∈ indexFunds (applyFundResult st c stocks q).index k) :
    g ∈ indexFunds st.index k ∨ (g = c ∧ k ∈ keysOf stocks) := by
  by_cases hg : g = c
  · subst hg
    cases hold : dictGet st.fund_stocks g with
    | none =>
        simp only [applyFundResult, hold] at h
        rcases (addStocks_mem_self_iff g stocks st.index k).mp h with hk | hk
        · exact Or.inr ⟨rfl, hk⟩
        · exact Or.inl hk
    | some old =>
        simp only [applyFundResult, hold] at h
        rcases (addStocks_mem_self_iff g stocks _ k).mp h with hk | hk
        · exact Or.inr ⟨rfl, hk⟩
        · exact Or.inl (cleanupOld_mem_self hk)
  · left
    cases hold : dictGet st.fund_stocks c with
    | none =>
        simp only [applyFundResult, hold] at h
        exact (addStocks_mem_other hg stocks st.index k).mp h
    | some old =>
        simp only [applyFundResult, hold] at h
        exact (cleanupOld_mem_other hg old st.index k).mp
          ((addStocks_mem_other hg stocks _ k).mp h)

theorem foldResults_not_mem_index {f : String}
    (results : List (String × List Stock × String)) :
    ∀ st, (∀ k, f ∉ indexFunds st.index k) →
      (∀ r ∈ results, r.1 = f → r.2.1 = []) →
      ∀ k, f ∉ indexFunds (foldResults st results).index k := by
  induction results with
  | nil => intro st h _ k; exact h k
  | cons r rest ih =>
      intro st h hall k
      refine ih _ ?_ (fun r₀ h₀ => hall r₀ (List.mem_cons_of_mem r h₀)) k
      intro k₁ hmem
      rcases applyFundResult_mem_index hmem with hmem | ⟨hgf, hk₁⟩
      · exact h k₁ hmem
      · rw [hall r (List.mem_cons_self r rest) hgf.symm] at hk₁
        simp [keysOf] at hk₁

theorem map_fst_processSingleFund (fetch : String → Option HoldingsFrame)
    (codes : List String) :
    (codes.map (processSingleFund fetch)).map (fun r => r.1) = codes := by
  rw [List.map_map]
  exact List.map_congr_left (fun c _ => processSingleFund_fst fetch c) |>.trans
    (List.map_id codes)

theorem scanBatch_scanned_iff (fetch : String → Option HoldingsFrame)
    (st : IndexState) (scope : List String) (c : String) :
    c ∈ (scanBatch fetch st scope).scanned_funds ↔
      c ∈ st.scanned_funds ∨ c ∈ scope := by
  unfold scanBatch
  by_cases hu : unscannedCodes st.scanned_funds scope = []
  · rw [if_pos hu]
    constructor
    · exact Or.inl
    · rintro (h | h)
      · exact h
      · by_contra hc
        have h₀ := List.filter_eq_nil_iff.mp hu c h
        simp at h₀
        exact hc h₀
  · rw [if_neg hu]
    simp only [List.mem_dedup]
    rw [foldResults_scanned, map_fst_processSingleFund]
    simp only [List.mem_append]
    constructor
    · rintro (h | h)
      · exact Or.inl h
      · exact Or.inr (mem_unscannedCodes.mp h).1
    · rintro (h | h)
      · exact Or.inl h
      · by_cases hs : c ∈ st.scanned_funds
        · exact Or.inl hs
        · exact Or.inr (mem_unscannedCodes.mpr ⟨h, hs⟩)

/-- C6: when the provider result for fund `f` is a failure, an empty frame
or a frame missing a required column, the per-fund worker returns `f` with
an empty key list and `Unknown` quarter; in any batch, every fund of the
scope (including `f`) still ends up scanned, `f` contributes no entry to
the reverse map, and a freshly scanned failing `f` gets the empty forward
entry — the batch neither aborts nor skips the other funds. -/
theorem provider_failure_containment (fetch : String → Option HoldingsFrame)
    (f : String)
    (hfail : fetch f = none ∨ ∃ df, fetch f = some df ∧
      (df.rows = [] ∨ df.hasCodeCol = false ∨ df.hasNameCol = false)) :
    processSingleFund fetch f = (f, [], "Unknown") ∧
    ∀ (st : IndexState) (scope : List String),
      (∀ g ∈ scope, g ∈ (scanBatch fetch st scope).scanned_funds) ∧
      ((∀ k, f ∉ indexFunds st.index k) →
        ∀ k, f ∉ indexFunds (scanBatch fetch st scope).index k) ∧
      (f ∈ scope → f ∉ st.scanned_funds →
        dictGet (scanBatch fetch st scope).fund_stocks f = some []) := by
  have hpsf := processSingleFund_failed fetch f hfail
  refine ⟨hpsf, fun st scope => ⟨?_, ?_, ?_⟩⟩
  · intro g hg
    exact (scanBatch_scanned_iff fetch st scope g).mpr (Or.inr hg)
  · intro hfresh k
    unfold scanBatch
    by_cases hu : unscannedCodes st.scanned_funds scope = []
    · rw [if_pos hu]
      exact hfresh k
    · rw [if_neg hu]
      refine foldResults_not_mem_index _ st hfresh ?_ k
      intro r hr hrf
      rcases List.mem_map.mp hr with ⟨c, hc, rfl⟩
      rw [processSingleFund_fst] at hrf
      subst hrf
      rw [hpsf]
  · intro hin hnotsc
    have hmem : f ∈ unscannedCodes st.scanned_funds scope :=
      mem_unscannedCodes.mpr ⟨hin, hnotsc⟩
    have hu : unscannedCodes st.scanned_funds scope ≠ [] := by
      intro h
      rw [h] at hmem
      exact List.not_mem_nil f hmem
    unfold scanBatch
    rw [if_neg hu]
    refine foldResults_fund_stocks_empty _ st ?_ ?_
    · intro r hr hrf
      rcases List.mem_map.mp hr with ⟨c, hc, rfl⟩
      rw [processSingleFund_fst] at hrf
      subst hrf
      rw [hpsf]
    · exact ⟨(f, [], "Unknown"), by
        rw [← hpsf]
        exact List.mem_map_of_mem (processSingleFund fetch) hmem, rfl⟩

/-- Witness for C6 with a provider that always fails. -/
theorem provider_failure_containment_witness :
    ((fun _ => none : String → Option HoldingsFrame) "000001" = none ∨
      ∃ df, (fun _ => none : String → Option HoldingsFrame) "000001" =
        some df ∧ (df.rows = [] ∨ df.hasCodeCol = false ∨
          df.hasNameCol = false)) ∧
    (processSingleFund (fun _ => none) "000001" = ("000001", [], "Unknown") ∧
    ∀ (st : IndexState) (scope : List String),
      (∀ g ∈ scope,
        g ∈ (scanBatch (fun _ => none) st scope).scanned_funds) ∧
      ((∀ k, "000001" ∉ indexFunds st.index k) →
        ∀ k, "000001" ∉ indexFunds (scanBatch (fun _ => none) st scope).index k) ∧
      ("000001" ∈ scope → "000001" ∉ st.scanned_funds →
        dictGet (scanBatch (fun _ => none) st scope).fund_stocks "000001" =
          some [])) :=
  ⟨Or.inl rfl, provider_failure_containment (fun _ => none) "000001" (Or.inl rfl)⟩


/-! ## Claim C8: resume equivalence of the chunked driver loop -/

theorem coreEq_trans {a b c : IndexState} (h₁ : coreEq a b) (h₂ : coreEq b c) :
    coreEq a c :=
  ⟨h₁.1.trans h₂.1, h₁.2.1.trans h₂.2.1, h₁.2.2.trans h₂.2.2⟩

theorem scanBatch_of_empty (fetch : String → Option HoldingsFrame)
    (st : IndexState) (scope : List String)
    (h : unscannedCodes st.scanned_funds scope = []) :
    scanBatch fetch st scope = st := by
  simp only [scanBatch, h]
  rfl

theorem scanBatch_of_ne (fetch : String → Option HoldingsFrame)
    (st : IndexState) (scope : List String)
    (h : unscannedCodes st.scanned_funds scope ≠ []) :
    scanBatch fetch st scope =
      { foldResults st ((unscannedCodes st.scanned_funds scope).map
          (processSingleFund fetch)) with
        scanned_funds := (foldResults st
          ((unscannedCodes st.scanned_funds scope).map
            (processSingleFund fetch))).scanned_funds.dedup } := by
  simp only [scanBatch, h]
  rfl

theorem scanBatch_eq_of_unscanned_eq (fetch : String → Option HoldingsFrame)
    (st : IndexState) {s₁ s₂ : List String}
    (h : unscannedCodes st.scanned_funds s₁ =
      unscannedCodes st.scanned_funds s₂) :
    scanBatch fetch st s₁ = scanBatch fetch st s₂ := by
  unfold scanBatch
  rw [h]

theorem applyFundResult_coreEq {a b : IndexState} (h : coreEq a b)
    (f : String) (stocks : List Stock) (q : String) :
    coreEq (applyFundResult a f stocks q) (applyFundResult b f stocks q) := by
  obtain ⟨hi, hq, hs⟩ := h
  refine ⟨?_, ?_, ?_⟩
  · simp only [applyFundResult]
    rw [hs, hi]
  · simp only [applyFundResult]
    rw [hq]
  · simp only [applyFundResult]
    rw [hs, hi]

theorem foldResults_coreEq (results : List (String × List Stock × String)) :
    ∀ {a b : IndexState}, coreEq a b →
      coreEq (foldResults a results) (foldResults b results) := by
  induction results with
  | nil => intro a b h; exact h
  | cons r rest ih =>
      intro a b h
      exact ih (applyFundResult_coreEq h r.1 r.2.1 r.2.2)

theorem foldResults_append (st : IndexState)
    (x y : List (String × List Stock × String)) :
    foldResults st (x ++ y) = foldResults (foldResults st x) y :=
  List.foldl_append _ _ _ _

theorem scanBatch_append (fetch : String → Option HoldingsFrame)
    (st : IndexState) (A B : List String) (hAB : ∀ c ∈ B, c ∉ A) :
    coreEq (scanBatch fetch (scanBatch fetch st A) B)
      (scanBatch fetch st (A ++ B)) ∧
    (∀ c, c ∈ (scanBatch fetch (scanBatch fetch st A) B).scanned_funds ↔
      c ∈ (scanBatch fetch st (A ++ B)).scanned_funds) := by
  have hu : unscannedCodes st.scanned_funds (A ++ B) =
      unscannedCodes st.scanned_funds A ++
        unscannedCodes st.scanned_funds B :=
    List.filter_append _ _
  have huB : unscannedCodes (scanBatch fetch st A).scanned_funds B =
      unscannedCodes st.scanned_funds B := by
    unfold unscannedCodes
    apply List.filter_congr
    intro c hc
    apply decide_eq_decide.mpr
    rw [scanBatch_scanned_iff fetch st A c]
    constructor
    · intro h h₀
      exact h (Or.inl h₀)
    · intro h h₀
      rcases h₀ with h₀ | h₀
      · exact h h₀
      · exact hAB c hc h₀
  constructor
  · by_cases hA : unscannedCodes st.scanned_funds A = []
    · have h₁ : scanBatch fetch st A = st := scanBatch_of_empty fetch st A hA
      have h₂ : scanBatch fetch st (A ++ B) = scanBatch fetch st B :=
        scanBatch_eq_of_unscanned_eq fetch st (by rw [hu, hA]; rfl)
      rw [h₁, h₂]
      exact ⟨rfl, rfl, rfl⟩
    · by_cases hB : unscannedCodes st.scanned_funds B = []
      · have h₁ : unscannedCodes (scanBatch fetch st A).scanned_funds B = [] := by
          rw [huB, hB]
        have h₂ : scanBatch fetch st (A ++ B) = scanBatch fetch st A :=
          scanBatch_eq_of_unscanned_eq fetch st
            (by rw [hu, hB, List.append_nil])
        rw [scanBatch_of_empty fetch _ B h₁, h₂]
        exact ⟨rfl, rfl, rfl⟩
      · have h₁ : unscannedCodes (scanBatch fetch st A).scanned_funds B ≠ [] := by
          rw [huB]
          exact hB
        have h₂ : unscannedCodes st.scanned_funds (A ++ B) ≠ [] := by
          rw [hu]
          intro h
          exact hA (List.append_eq_nil.mp h).1
        rw [scanBatch_of_ne fetch _ B h₁, huB,
          scanBatch_of_ne fetch st A hA, scanBatch_of_ne fetch st _ h₂, hu,
          List.map_append, foldResults_append]
        have hcore : coreEq
            { foldResults st ((unscannedCodes st.scanned_funds A).map
                (processSingleFund fetch)) with
              scanned_funds := (foldResults st
                ((unscannedCodes st.scanned_funds A).map
                  (processSingleFund fetch))).scanned_funds.dedup }
            (foldResults st ((unscannedCodes st.scanned_funds A).map
              (processSingleFund fetch))) :=
          ⟨rfl, rfl, rfl⟩
        have h₃ := foldResults_coreEq
          ((unscannedCodes st.scanned_funds B).map (processSingleFund fetch))
          hcore
        exact ⟨h₃.1, h₃.2.1, h₃.2.2⟩
  · intro c
    rw [scanBatch_scanned_iff, scanBatch_scanned_iff, scanBatch_scanned_iff]
    rw [List.mem_append]
    tauto

/-- C8: for a fixed scope and a deterministic provider, consuming the
scope in successive disjoint chunks — as the chunked driver loop does,
with the per-chunk save and reload round-tripping the state — produces
exactly the reverse map, forward maps and (as a set) scanned list of one
uninterrupted batch over the whole scope. -/
theorem resume_equivalence (fetch : String → Option HoldingsFrame)
    (st : IndexState) (chunks : List (List String))
    (hdisj : chunks.Pairwise (fun A B => ∀ c ∈ A, c ∉ B)) :
    coreEq (chunkedScan fetch st chunks) (scanBatch fetch st chunks.flatten) ∧
    (∀ c, c ∈ (chunkedScan fetch st chunks).scanned_funds ↔
      c ∈ (scanBatch fetch st chunks.flatten).scanned_funds) := by
  induction chunks generalizing st with
  | nil =>
      have h : scanBatch fetch st ([] : List (List String)).flatten = st :=
        scanBatch_of_empty fetch st _ rfl
      rw [h]
      exact ⟨⟨rfl, rfl, rfl⟩, fun c => Iff.rfl⟩
  | cons A rest ih =>
      obtain ⟨hhead, htail⟩ := List.pairwise_cons.mp hdisj
      have hAB : ∀ c ∈ rest.flatten, c ∉ A := by
        intro c hc hcA
        rcases List.mem_flatten.mp hc with ⟨l, hl, hcl⟩
        exact hhead l hl c hcA hcl
      have hcomp := scanBatch_append fetch st A rest.flatten hAB
      have hih := ih (scanBatch fetch st A) htail
      have hjoin : (A :: rest).flatten = A ++ rest.flatten := rfl
      have hchunk : chunkedScan fetch st (A :: rest) =
          chunkedScan fetch (scanBatch fetch st A) rest := rfl
      rw [hchunk, hjoin]
      exact ⟨coreEq_trans hih.1 hcomp.1,
        fun c => (hih.2 c).trans (hcomp.2 c)⟩

/-- Witness for C8 at a concrete two-chunk split. -/
theorem resume_equivalence_witness :
    ([["F1"], ["F2", "F3"]] : List (List String)).Pairwise
        (fun A B => ∀ c ∈ A, c ∉ B) ∧
    (coreEq (chunkedScan (fun _ => none) emptyIndexState [["F1"], ["F2", "F3"]])
      (scanBatch (fun _ => none) emptyIndexState
        [["F1"], ["F2", "F3"]].flatten) ∧
    (∀ c, c ∈ (chunkedScan (fun _ => none) emptyIndexState
        [["F1"], ["F2", "F3"]]).scanned_funds ↔
      c ∈ (scanBatch (fun _ => none) emptyIndexState
        [["F1"], ["F2", "F3"]].flatten).scanned_funds)) :=
  have hp : ([["F1"], ["F2", "F3"]] : List (List String)).Pairwise
      (fun A B => ∀ c ∈ A, c ∉ B) := by
    simp [List.pairwise_cons]
  ⟨hp, resume_equivalence (fun _ => none) emptyIndexState
    [["F1"], ["F2", "F3"]] hp⟩


/-! ## Lemmas on the query path -/

theorem list_nodup_length_le (l₁ l₂ : List String) (h : l₁.Nodup)
    (hs : ∀ x ∈ l₁, x ∈ l₂) : l₁.length ≤ l₂.length := by
  have h₁ : l₁.toFinset.card = l₁.length := List.toFinset_card_of_nodup h
  have h₂ : l₁.toFinset ⊆ l₂.toFinset := by
    intro a ha
    simp only [List.mem_toFinset] at ha ⊢
    exact hs a ha
  calc l₁.length = l₁.toFinset.card := h₁.symm
    _ ≤ l₂.toFinset.card := Finset.card_le_card h₂
    _ ≤ l₂.length := l₂.toFinset_card_le

theorem addHit_wf {inputs : List String} {hits : List (String × List String)}
    {f inp : String} (h : hitsWF inputs hits) (hin : inp ∈ inputs) :
    hitsWF inputs (addHit hits f inp) := by
  have hm : ((dictGet hits f).getD []).Nodup ∧
      ∀ x ∈ (dictGet hits f).getD [], x ∈ inputs := by
    cases hget : dictGet hits f with
    | none => simp
    | some m₀ =>
        have h₀ := h (f, m₀) (dictGet_mem hget)
        exact ⟨h₀.2.1, h₀.2.2⟩
  by_cases hmem : inp ∈ (dictGet hits f).getD []
  · simpa [addHit, hmem] using h
  · intro p hp
    simp only [addHit] at hp
    rw [if_neg hmem] at hp
    rcases mem_dictSet hp with hp | hp
    · rw [hp]
      refine ⟨by simp, ?_, ?_⟩
      · simp [List.nodup_append, hm.1, hmem]
      · intro x hx
        rcases List.mem_append.mp hx with hx | hx
        · exact hm.2 x hx
        · rw [List.mem_singleton.mp hx]
          exact hin
    · exact h p hp

theorem innerFold_wf {inputs scope : List String} {inp : String}
    (l : List String) :
    ∀ {hits : List (String × List String)}, hitsWF inputs hits →
      inp ∈ inputs →
      hitsWF inputs (l.foldl
        (fun h₀ f₀ => if f₀ ∈ scope then addHit h₀ f₀ inp else h₀) hits) := by
  induction l with
  | nil => intro hits h _; exact h
  | cons g rest ih =>
      intro hits h hin
      show hitsWF inputs (rest.foldl _
        (if g ∈ scope then addHit hits g inp else hits))
      by_cases hg : g ∈ scope
      · rw [if_pos hg]
        exact ih (addHit_wf h hin) hin
      · rw [if_neg hg]
        exact ih h hin

theorem collectHits_wf_aux {inputs scope : List String}
    {index : List (String × List String)} (L : List String) :
    ∀ hits, (∀ x ∈ L, x ∈ inputs) → hitsWF inputs hits →
      hitsWF inputs (L.foldl
        (fun hs inp =>
          match dictGet index inp with
          | none => hs
          | some hit_funds =>
              hit_funds.foldl
                (fun h f_code =>
                  if f_code ∈ scope then addHit h f_code inp else h) hs)
        hits) := by
  induction L with
  | nil => intro hits _ h; exact h
  | cons inp rest ih =>
      intro hits hsub h
      rw [List.foldl_cons]
      refine ih _ (fun x hx => hsub x (List.mem_cons_of_mem inp hx)) ?_
      cases hget : dictGet index inp with
      | none => simpa [hget] using h
      | some hit_funds =>
          simp only [hget]
          exact innerFold_wf hit_funds h (hsub inp (List.mem_cons_self inp rest))

theorem collectHits_wf (inputs scope : List String)
    (index : List (String × List String)) :
    hitsWF inputs (collectHits inputs scope index) := by
  unfold collectHits
  exact collectHits_wf_aux inputs [] (fun x hx => hx)
    (fun p hp => absurd hp (List.not_mem_nil p))

theorem mem_buildRows {inputs : List String}
    {hits : List (String × List String)}
    {quarters : List (String × String)} {r : ResultRow} :
    r ∈ buildRows inputs hits quarters ↔
      ∃ p ∈ hits, p.2 ≠ [] ∧
        r = ⟨p.1, p.2.length, (p.2.length : ℚ) / (inputs.length : ℚ), p.2,
          (dictGet quarters p.1).getD "Unknown"⟩ := by
  have haux : ∀ (hs : List (String × List String)) (acc : List ResultRow),
      r ∈ hs.foldl
        (fun acc₀ p =>
          if p.2 ≠ [] then
            acc₀ ++ [{ fund_code := p.1
                       match_count := p.2.length
                       match_degree := (p.2.length : ℚ) / (inputs.length : ℚ)
                       matched_stocks := p.2
                       quarter := (dictGet quarters p.1).getD "Unknown" }]
          else acc₀) acc ↔
      r ∈ acc ∨ ∃ p ∈ hs, p.2 ≠ [] ∧
        r = ⟨p.1, p.2.length, (p.2.length : ℚ) / (inputs.length : ℚ), p.2,
          (dictGet quarters p.1).getD "Unknown"⟩ := by
    intro hs
    induction hs with
    | nil => intro acc; simp
    | cons p rest ih =>
        intro acc
        rw [List.foldl_cons]
        by_cases hp : p.2 = []
        · rw [if_neg (by simp [hp])]
          rw [ih]
          constructor
          · rintro (h | ⟨q, hq, hqne, hqr⟩)
            · exact Or.inl h
            · exact Or.inr ⟨q, List.mem_cons_of_mem p hq, hqne, hqr⟩
          · rintro (h | ⟨q, hq, hqne, hqr⟩)
            · exact Or.inl h
            · rcases List.mem_cons.mp hq with hq | hq
              · exact absurd (hq ▸ hp) hqne
              · exact Or.inr ⟨q, hq, hqne, hqr⟩
        · rw [if_pos (by simp [hp])]
          rw [ih]
          simp only [List.mem_append, List.mem_singleton, List.mem_cons,
            List.not_mem_nil, or_false]
          constructor
          · rintro ((h | h) | ⟨q, hq, hqne, hqr⟩)
            · exact Or.inl h
            · exact Or.inr ⟨p, Or.inl rfl, hp, h⟩
            · exact Or.inr ⟨q, Or.inr hq, hqne, hqr⟩
          · rintro (h | ⟨q, hq | hq, hqne, hqr⟩)
            · exact Or.inl (Or.inl h)
            · exact Or.inl (Or.inr (by rw [hq] at hqr; exact hqr))
            · exact Or.inr ⟨q, hq, hqne, hqr⟩
  unfold buildRows
  rw [haux hits []]
  simp

theorem mem_insertRow {α : Type} (le : α → α → Bool) (x y : α) (l : List α) :
    y ∈ insertRow le x l ↔ y = x ∨ y ∈ l := by
  induction l with
  | nil => simp [insertRow]
  | cons z rest ih =>
      by_cases h : le x z
      · simp [insertRow, h]
      · simp only [insertRow, h, Bool.false_eq_true, if_false, List.mem_cons, ih]
        tauto

theorem mem_insertionSort {α : Type} (le : α → α → Bool) (y : α)
    (l : List α) : y ∈ insertionSort le l ↔ y ∈ l := by
  induction l with
  | nil => exact Iff.rfl
  | cons z rest ih =>
      simp only [insertionSort, mem_insertRow, List.mem_cons, ih]

theorem mem_queryCore {inputs scope : List String}
    {index : List (String × List String)}
    {quarters : List (String × String)} {r : ResultRow}
    (h : r ∈ queryCore inputs scope index quarters) :
    ∃ p ∈ collectHits inputs scope index, p.2 ≠ [] ∧
      r = ⟨p.1, p.2.length, (p.2.length : ℚ) / (inputs.length : ℚ), p.2,
        (dictGet quarters p.1).getD "Unknown"⟩ := by
  unfold queryCore at h
  by_cases hrows : buildRows inputs (collectHits inputs scope index) quarters = []
  · rw [if_pos hrows] at h
    exact absurd h (List.not_mem_nil r)
  · rw [if_neg hrows, mem_insertionSort] at h
    exact mem_buildRows.mp h

theorem queryCore_degree {inputs scope : List String}
    {index : List (String × List String)}
    {quarters : List (String × String)} {r : ResultRow}
    (hne : inputs ≠ []) (h : r ∈ queryCore inputs scope index quarters) :
    r.match_degree = (r.match_count : ℚ) / (inputs.length : ℚ) ∧
      0 < r.match_degree ∧ r.match_degree ≤ 1 ∧ 0 < r.match_count := by
  obtain ⟨p, hp, hpne, hr⟩ := mem_queryCore h
  have hwf := collectHits_wf inputs scope index p hp
  have h₁ : 1 ≤ p.2.length := by
    cases hl : p.2 with
    | nil => exact absurd hl hpne
    | cons a l => simp [hl]
  have h₂ : p.2.length ≤ inputs.length :=
    list_nodup_length_le p.2 inputs hwf.2.1 hwf.2.2
  have hlen : (0 : ℚ) < (inputs.length : ℚ) := by
    have : 0 < inputs.length := List.length_pos.mpr hne
    exact_mod_cast this
  subst hr
  refine ⟨rfl, ?_, ?_, h₁⟩
  · apply div_pos ?_ hlen
    exact_mod_cast h₁
  · rw [div_le_one hlen]
    exact_mod_cast h₂

theorem keysOf_mem_code {stocks : List Stock} {s : Stock} (h : s ∈ stocks) :
    s.code ∈ keysOf stocks ∧ s.name ∈ keysOf stocks := by
  induction stocks with
  | nil => exact absurd h (List.not_mem_nil s)
  | cons a rest ih =>
      rcases List.mem_cons.mp h with h | h
      · subst h
        simp [keysOf]
      · have := ih h
        simp [keysOf, this.1, this.2]

theorem applyFundResult_mem_self {st : IndexState} {f k : String}
    {stocks : List Stock} {q : String} (hk : k ∈ keysOf stocks) :
    f ∈ indexFunds (applyFundResult st f stocks q).index k := by
  cases hold : dictGet st.fund_stocks f with
  | none =>
      simp only [applyFundResult, hold]
      exact (addStocks_mem_self_iff f stocks st.index k).mpr (Or.inl hk)
  | some old =>
      simp only [applyFundResult, hold]
      exact (addStocks_mem_self_iff f stocks _ k).mpr (Or.inl hk)

theorem applyFundResult_fund_quarters (st : IndexState) (f : String)
    (stocks : List Stock) (q : String) :
    (applyFundResult st f stocks q).fund_quarters =
      dictSet st.fund_quarters f q := by
  cases hold : dictGet st.fund_stocks f <;> simp [applyFundResult, hold]

theorem innerFold_single_stable (t f : String) (l : List String) :
    l.foldl (fun h g => if g ∈ [f] then addHit h g t else h) [(f, [t])] =
      [(f, [t])] := by
  induction l with
  | nil => rfl
  | cons g rest ih =>
      rw [List.foldl_cons]
      by_cases hg : g ∈ [f]
      · have hgf : g = f := List.mem_singleton.mp hg
        subst hgf
        have haddhit : addHit [(g, [t])] g t = [(g, [t])] := by
          simp [addHit, dictGet]
        rw [if_pos hg, haddhit, ih]
      · rw [if_neg hg, ih]

theorem innerFold_single (t f : String) (l : List String) (hf : f ∈ l) :
    l.foldl (fun h g => if g ∈ [f] then addHit h g t else h) [] =
      [(f, [t])] := by
  induction l with
  | nil => exact absurd hf (List.not_mem_nil f)
  | cons g rest ih =>
      rw [List.foldl_cons]
      by_cases hg : g ∈ [f]
      · have hgf : g = f := List.mem_singleton.mp hg
        subst hgf
        have haddhit : addHit [] g t = [(g, [t])] := by
          simp [addHit, dictGet, dictSet]
        rw [if_pos hg, haddhit, innerFold_single_stable]
      · have hgf : g ≠ f := fun h => hg (by rw [h]; exact List.mem_singleton.mpr rfl)
        rw [if_neg hg]
        refine ih ?_
        rcases List.mem_cons.mp hf with h | h
        · exact absurd h.symm hgf
        · exact h

theorem queryCore_single (t f : String)
    (ix : List (String × List String)) (qt : List (String × String))
    (l : List String) (hget : dictGet ix t = some l) (hf : f ∈ l) :
    queryCore [t] [f] ix qt =
      [⟨f, 1, (1 : ℚ) / (1 : ℚ), [t], (dictGet qt f).getD "Unknown"⟩] := by
  have hc : collectHits [t] [f] ix = [(f, [t])] := by
    unfold collectHits
    rw [List.foldl_cons, List.foldl_nil]
    simp only [hget]
    exact innerFold_single t f l hf
  unfold queryCore
  rw [hc]
  have hb : buildRows [t] [(f, [t])] qt =
      [⟨f, 1, (1 : ℚ) / (1 : ℚ), [t], (dictGet qt f).getD "Unknown"⟩] := by
    simp [buildRows]
  rw [hb]
  rw [if_neg (by simp)]
  simp [insertionSort, insertRow]


/-! ## Claim C4: match correctness -/

/-- C4 (amended): for any term `t` equal to the stock code or the stock
name of a holding of fund `f` in its latest reporting quarter as returned
by the provider, provided `t` is non-blank and carries no leading or
trailing whitespace (the query strips its terms while index keys are
stored raw), searching the terms `[t]` with scope `[f]` over a snapshot in
which `f` is unscanned returns exactly the row for `f` with
`match_count = 1` and `match_degree = 1`. -/
theorem match_correctness (fetch : String → Option HoldingsFrame)
    (cache : IndexState) (f t quarter : String) (stocks : List Stock)
    (s : Stock)
    (hscan : f ∉ cache.scanned_funds)
    (hres : processSingleFund fetch f = (f, stocks, quarter))
    (hs : s ∈ stocks) (ht : t = s.code ∨ t = s.name)
    (htrim : pyStrip t = t) (hne : t ≠ "") :
    (searchFundsByStocksAsync fetch cache [t] [f]).2 =
      [⟨f, 1, 1, [t], quarter⟩] := by
  have hinputs : normalizeInputs [t] = [t] := by
    simp [normalizeInputs, htrim, hne]
  have huns : unscannedCodes cache.scanned_funds [f] = [f] := by
    simp [unscannedCodes, hscan]
  have hbatchne : unscannedCodes cache.scanned_funds [f] ≠ [] := by
    rw [huns]
    simp
  have hbatch := scanBatch_of_ne fetch cache [f] hbatchne
  rw [huns] at hbatch
  have hmap : ([f].map (processSingleFund fetch)) = [(f, stocks, quarter)] := by
    simp [hres]
  rw [hmap] at hbatch
  have hfold : foldResults cache [(f, stocks, quarter)] =
      applyFundResult cache f stocks quarter := rfl
  rw [hfold] at hbatch
  have htk : t ∈ keysOf stocks := by
    rcases ht with ht | ht
    · exact ht ▸ (keysOf_mem_code hs).1
    · exact ht ▸ (keysOf_mem_code hs).2
  have hmem : f ∈ indexFunds (applyFundResult cache f stocks quarter).index t :=
    applyFundResult_mem_self htk
  obtain ⟨l, hget, hfl⟩ : ∃ l,
      dictGet (applyFundResult cache f stocks quarter).index t = some l ∧
        f ∈ l := by
    unfold indexFunds at hmem
    cases hg : dictGet (applyFundResult cache f stocks quarter).index t with
    | none =>
        rw [hg] at hmem
        simp at hmem
    | some l =>
        rw [hg] at hmem
        exact ⟨l, rfl, hmem⟩
  have hq : dictGet (applyFundResult cache f stocks quarter).fund_quarters f =
      some quarter := by
    rw [applyFundResult_fund_quarters, dictGet_set_self]
  simp only [searchFundsByStocksAsync]
  rw [hinputs]
  rw [if_neg (by simp)]
  rw [hbatch]
  show queryCore [t] [f] (applyFundResult cache f stocks quarter).index
    (applyFundResult cache f stocks quarter).fund_quarters = _
  rw [queryCore_single t f _ _ l hget hfl, hq]
  norm_num

/-- Witness for C4 at a concrete provider, fund and term. -/
theorem match_correctness_witness :
    ("F1" : String) ∉ emptyIndexState.scanned_funds ∧
    processSingleFund sampleFetch "F1" =
      ("F1", [⟨"600519", "贵州茅台"⟩], "2024年3季度") ∧
    (⟨"600519", "贵州茅台"⟩ : Stock) ∈
      ([⟨"600519", "贵州茅台"⟩] : List Stock) ∧
    ("600519" = (⟨"600519", "贵州茅台"⟩ : Stock).code ∨
      "600519" = (⟨"600519", "贵州茅台"⟩ : Stock).name) ∧
    pyStrip "600519" = "600519" ∧ ("600519" : String) ≠ "" ∧
    (searchFundsByStocksAsync sampleFetch emptyIndexState ["600519"]
        ["F1"]).2 =
      [⟨"F1", 1, 1, ["600519"], "2024年3季度"⟩] :=
  ⟨by decide, by decide, by decide, Or.inl rfl, by decide, by decide,
   match_correctness sampleFetch emptyIndexState "F1" "600519" "2024年3季度"
     [⟨"600519", "贵州茅台"⟩] ⟨"600519", "贵州茅台"⟩ (by decide) (by decide)
     (by decide) (Or.inl rfl) (by decide) (by decide)⟩

/-- C4 as universally stated fails: when a holding's stock name carries
leading whitespace, the term equal to that raw name is stripped by the
query normalization (`analyzer.py` line 142) while the index key keeps the
raw name, so the search returns no row at all instead of the fund's row
with `match_count = 1`. -/
theorem match_correctness_counterexample :
    (searchFundsByStocksAsync
        (fun c => if c = "F1" then
          some ⟨[⟨"600519", " 茅台", "2024年3季度"⟩], true, true, true⟩
        else none)
        emptyIndexState [" 茅台"] ["F1"]).2 = [] ∧
    (searchFundsByStocksAsync
        (fun c => if c = "F1" then
          some ⟨[⟨"600519", " 茅台", "2024年3季度"⟩], true, true, true⟩
        else none)
        emptyIndexState [" 茅台"] ["F1"]).2 ≠
      [⟨"F1", 1, 1, [" 茅台"], "2024年3季度"⟩] := by
  constructor
  · decide
  · decide


/-! ## Claim C5: the degree bound -/

/-- C5: every row either query path returns carries
`match_degree = match_count / |normalized terms|`, a degree strictly
between 0 (exclusive) and 1 (inclusive), and a positive `match_count` — a
fund with no matched term never appears. -/
theorem degree_bound :
    (∀ (fetch : String → Option HoldingsFrame) (cache : IndexState)
      (stock_inputs filter_fund_codes : List String) (r : ResultRow),
      r ∈ (searchFundsByStocksAsync fetch cache stock_inputs
        filter_fund_codes).2 →
      degreeOk stock_inputs r) ∧
    (∀ (cache : IndexState) (stock_inputs filter_fund_codes : List String)
      (r : ResultRow),
      r ∈ queryReverseIndexDirect cache stock_inputs filter_fund_codes →
      degreeOk stock_inputs r) := by
  constructor
  · intro fetch cache si fc r hr
    simp only [searchFundsByStocksAsync] at hr
    by_cases hcond : normalizeInputs si = [] ∨ fc = []
    · rw [if_pos hcond] at hr
      exact absurd hr (List.not_mem_nil r)
    · rw [if_neg hcond] at hr
      have hni : normalizeInputs si ≠ [] := fun h => hcond (Or.inl h)
      unfold degreeOk
      exact queryCore_degree hni hr
  · intro cache si fc r hr
    simp only [queryReverseIndexDirect] at hr
    by_cases hcond : normalizeInputs si = []
    · rw [if_pos hcond] at hr
      exact absurd hr (List.not_mem_nil r)
    · rw [if_neg hcond] at hr
      unfold degreeOk
      exact queryCore_degree hcond hr

theorem sampleCache_query_eval :
    (searchFundsByStocksAsync (fun _ => none) sampleCache ["600519"]
        ["F1"]).2 =
      [⟨"F1", 1, (1 : ℚ) / (1 : ℚ), ["600519"], "2024年3季度"⟩] := by
  have hinputs : normalizeInputs ["600519"] = ["600519"] := by decide
  have hbatch : scanBatch (fun _ => none) sampleCache ["F1"] = sampleCache :=
    scanBatch_of_empty _ _ _ (by decide)
  simp only [searchFundsByStocksAsync]
  rw [hinputs, if_neg (by simp), hbatch]
  show queryCore ["600519"] ["F1"] sampleCache.index
    sampleCache.fund_quarters = _
  rw [queryCore_single "600519" "F1" sampleCache.index
    sampleCache.fund_quarters ["F1"] (by decide) (by decide)]
  rfl

/-- Witness for C5 at a concrete query hitting the sample cache. -/
theorem degree_bound_witness :
    (⟨"F1", 1, (1 : ℚ) / (1 : ℚ), ["600519"], "2024年3季度"⟩ : ResultRow) ∈
      (searchFundsByStocksAsync (fun _ => none) sampleCache ["600519"]
        ["F1"]).2 ∧
    degreeOk ["600519"]
      ⟨"F1", 1, (1 : ℚ) / (1 : ℚ), ["600519"], "2024年3季度"⟩ :=
  have hmem : (⟨"F1", 1, (1 : ℚ) / (1 : ℚ), ["600519"],
      "2024年3季度"⟩ : ResultRow) ∈
      (searchFundsByStocksAsync (fun _ => none) sampleCache ["600519"]
        ["F1"]).2 := by
    rw [sampleCache_query_eval]
    exact List.mem_singleton.mpr rfl
  ⟨hmem, degree_bound.1 (fun _ => none) sampleCache ["600519"] ["F1"] _ hmem⟩


/-! ## Claim C3: the cache invalidation rule of `load_reverse_index` -/

/-- C3: `load_reverse_index` returns the persisted snapshot unchanged
whenever `holdings_mtime ≤ timestamp + 2.0` (GRACE = 2 s), and the fresh
empty snapshot whenever `holdings_mtime > timestamp + 2.0`; the decision is
all-or-nothing, never per-fund. -/
theorem load_cache_invalidation_rule (d : RawDoc) (T holdings_mtime : ℚ)
    (fs : List (String × List String)) :
    (d.timestamp = some T → d.fund_stocks = some fs →
      holdings_mtime ≤ T + 2 →
      loadReverseIndex true (some d) holdings_mtime =
        ⟨T, d.scanned_funds, d.index, d.fund_quarters, fs⟩) ∧
    (d.timestamp = some T → holdings_mtime > T + 2 →
      loadReverseIndex true (some d) holdings_mtime = emptySnapshot) := by
  constructor
  · intro ht hfs hle
    simp [loadReverseIndex, ht, hfs, not_lt.mpr hle]
  · intro ht hgt
    simp [loadReverseIndex, ht, hgt]

/-- Witness for C3 at a concrete document, on both sides of the
two-second boundary. -/
theorem load_cache_invalidation_rule_witness :
    loadReverseIndex true
        (some ⟨some 10, ["000001"], [("k", ["000001"])],
          [("000001", "2024年3季度")], some [("000001", ["k"])]⟩) 12 =
      ⟨10, ["000001"], [("k", ["000001"])], [("000001", "2024年3季度")],
        [("000001", ["k"])]⟩ ∧
    loadReverseIndex true
        (some ⟨some 10, ["000001"], [("k", ["000001"])],
          [("000001", "2024年3季度")], some [("000001", ["k"])]⟩) 13 =
      emptySnapshot :=
  ⟨(load_cache_invalidation_rule _ 10 12 [("000001", ["k"])]).1 rfl rfl
      (by norm_num),
   (load_cache_invalidation_rule _ 10 13 [("000001", ["k"])]).2 rfl
      (by norm_num)⟩

/-! ## Claim C10: legacy-schema tolerance of `load_reverse_index` -/

/-- C10 as stated is false: a document that parses as valid JSON but lacks
the `fund_stocks` field is still replaced by the fresh empty snapshot when
the holdings directory is newer than its timestamp plus the 2 s grace,
rather than being returned with `fund_stocks` defaulted. -/
theorem load_legacy_schema_counterexample :
    loadReverseIndex true (some ⟨some 0, ["000001"], [], [], none⟩) 10 =
      emptySnapshot ∧
    loadReverseIndex true (some ⟨some 0, ["000001"], [], [], none⟩) 10 ≠
      ⟨0, ["000001"], [], [], []⟩ := by
  have h : loadReverseIndex true (some ⟨some 0, ["000001"], [], [], none⟩) 10 =
      emptySnapshot := by
    simp [loadReverseIndex]
    norm_num
  refine ⟨h, ?_⟩
  rw [h]
  simp [emptySnapshot]

/-- C10 amended: while the snapshot passes the staleness check
(`holdings_mtime ≤ timestamp + 2.0`), a valid JSON document lacking
`fund_stocks` is not treated as corrupt — it is returned with `fund_stocks`
defaulted to the empty map and all other fields as stored. -/
theorem load_legacy_schema_amended (d : RawDoc) (T holdings_mtime : ℚ)
    (ht : d.timestamp = some T) (hfs : d.fund_stocks = none)
    (hle : holdings_mtime ≤ T + 2) :
    loadReverseIndex true (some d) holdings_mtime =
      ⟨T, d.scanned_funds, d.index, d.fund_quarters, []⟩ := by
  simp [loadReverseIndex, ht, hfs, not_lt.mpr hle]

/-- Witness for the amended C10 at a concrete legacy document. -/
theorem load_legacy_schema_amended_witness :
    loadReverseIndex true
        (some ⟨some 10, ["000001"], [("k", ["000001"])],
          [("000001", "2024年3季度")], none⟩) 11 =
      ⟨10, ["000001"], [("k", ["000001"])], [("000001", "2024年3季度")], []⟩ :=
  load_legacy_schema_amended _ 10 11 rfl rfl (by norm_num)

/-! ## Claim C7: the scanned-once guarantee -/

/-- C7: a fund in the loaded snapshot's `scanned_funds` is excluded from
the unscanned list of a subsequent search over any scope, so no
`process_single_fund` task is created for it — regardless of whether its
previous scan produced any holdings. -/
theorem scanned_once_guarantee (snap : IndexSnapshot) (scope : List String)
    (f : String) (h : f ∈ snap.scanned_funds) :
    f ∉ unscannedCodes snap.scanned_funds scope ∧
    ∀ (fetch : String → Option HoldingsFrame)
      (r : String × List Stock × String),
      r ∈ (unscannedCodes snap.scanned_funds scope).map
            (processSingleFund fetch) → r.1 ≠ f := by
  constructor
  · intro hmem
    exact (mem_unscannedCodes.mp hmem).2 h
  · intro fetch r hr
    rcases List.mem_map.mp hr with ⟨c, hc, rfl⟩
    rw [processSingleFund_fst]
    intro hcf
    exact (mem_unscannedCodes.mp hc).2 (hcf ▸ h)

/-- Witness for C7: fund `000001` was scanned with zero holdings and is
not re-submitted when searching the scope `[000001, 000002]`. -/
theorem scanned_once_guarantee_witness :
    ("000001" : String) ∈
        (⟨5, ["000001"], [], [], [("000001", [])]⟩ : IndexSnapshot).scanned_funds ∧
    ("000001" : String) ∉
        unscannedCodes
          (⟨5, ["000001"], [], [], [("000001", [])]⟩ :
            IndexSnapshot).scanned_funds ["000001", "000002"] :=
  ⟨by decide,
   (scanned_once_guarantee ⟨5, ["000001"], [], [], [("000001", [])]⟩
      ["000001", "000002"] "000001" (by decide)).1⟩

/-! ## The cross-consistency invariant -/

theorem invariant_empty : invariant emptyIndexState := by
  refine ⟨⟨?_, ?_⟩, ?_⟩
  · intro f S h
    simp [emptyIndexState, dictGet] at h
  · intro k f h
    simp [emptyIndexState, indexFunds, dictGet] at h
  · intro k
    simp [emptyIndexState, indexFunds, dictGet]

theorem invariant_step_aux (st : IndexState)
    (ix₁ : List (String × List String)) (f quarter : String)
    (stocks : List Stock)
    (Hother : ∀ g, g ≠ f → ∀ k,
      (g ∈ indexFunds ix₁ k ↔ g ∈ indexFunds st.index k))
    (Hfresh : ∀ k, f ∉ indexFunds ix₁ k)
    (Hnd₁ : nodupVals ix₁)
    (hfwd : ∀ f₀ S, dictGet st.fund_stocks f₀ = some S →
      ∀ k ∈ S, f₀ ∈ indexFunds st.index k)
    (hbwd : ∀ k f₀, f₀ ∈ indexFunds st.index k →
      ∃ S, dictGet st.fund_stocks f₀ = some S ∧ k ∈ S) :
    invariant
      { scanned_funds := st.scanned_funds ++ [f]
        index := (addStocks ix₁ f stocks).1
        fund_quarters := dictSet st.fund_quarters f quarter
        fund_stocks := dictSet st.fund_stocks f (addStocks ix₁ f stocks).2 } := by
  have hK : (addStocks ix₁ f stocks).2 = keysOf stocks := addStocks_snd f stocks ix₁
  refine ⟨⟨?_, ?_⟩, ?_⟩
  · intro f₀ S hS k hkS
    simp only at hS ⊢
    by_cases hf₀ : f₀ = f
    · subst hf₀
      rw [dictGet_set_self] at hS
      injection hS with hS
      subst hS
      rw [hK] at hkS
      exact (addStocks_mem_self_iff f₀ stocks ix₁ k).mpr (Or.inl hkS)
    · rw [dictGet_set_ne st.fund_stocks f f₀ _ (fun h => hf₀ h.symm)] at hS
      exact (addStocks_mem_other hf₀ stocks ix₁ k).mpr
        ((Hother f₀ hf₀ k).mpr (hfwd f₀ S hS k hkS))
  · intro k f₀ hmem
    simp only at hmem ⊢
    by_cases hf₀ : f₀ = f
    · subst hf₀
      rcases (addStocks_mem_self_iff f₀ stocks ix₁ k).mp hmem with hk | hk
      · exact ⟨(addStocks ix₁ f₀ stocks).2, dictGet_set_self _ _ _, by rw [hK]; exact hk⟩
      · exact absurd hk (Hfresh k)
    · rcases hbwd k f₀
        ((Hother f₀ hf₀ k).mp ((addStocks_mem_other hf₀ stocks ix₁ k).mp hmem))
        with ⟨S, hS, hkS⟩
      exact ⟨S, by
        rw [dictGet_set_ne st.fund_stocks f f₀ _ (fun h => hf₀ h.symm)]
        exact hS, hkS⟩
  · exact addStocks_nodup stocks Hnd₁

theorem invariant_applyFundResult {st : IndexState} (hinv : invariant st)
    (f : String) (stocks : List Stock) (quarter : String) :
    invariant (applyFundResult st f stocks quarter) := by
  obtain ⟨⟨hfwd, hbwd⟩, hnd⟩ := hinv
  cases hold : dictGet st.fund_stocks f with
  | none =>
      have h := invariant_step_aux st st.index f quarter stocks
        (fun g _ k => Iff.rfl)
        (fun k hf => by
          rcases hbwd k f hf with ⟨S, hS, _⟩
          rw [hold] at hS
          cases hS)
        hnd hfwd hbwd
      simpa only [applyFundResult, hold] using h
  | some old_keys =>
      have h := invariant_step_aux st (cleanupOld st.index f old_keys) f
        quarter stocks
        (fun g hg k => cleanupOld_mem_other hg old_keys st.index k)
        (fun k => by
          by_cases hk : k ∈ old_keys
          · exact cleanupOld_not_mem_self old_keys st.index k (hnd k) hk
          · intro hf
            have hg : f ∈ indexFunds st.index k := by
              unfold indexFunds at hf
              rw [cleanupOld_get_of_not_mem hk st.index] at hf
              exact hf
            rcases hbwd k f hg with ⟨S, hS, hkS⟩
            rw [hold] at hS
            injection hS with hS
            exact hk (hS ▸ hkS))
        (cleanupOld_nodup old_keys hnd) hfwd hbwd
      simpa only [applyFundResult, hold] using h

theorem invariant_foldResults (results : List (String × List Stock × String)) :
    ∀ st, invariant st → invariant (foldResults st results) := by
  induction results with
  | nil => intro st h; exact h
  | cons r rest ih =>
      intro st h
      exact ih _ (invariant_applyFundResult h r.1 r.2.1 r.2.2)

theorem invariant_scanBatch (fetch : String → Option HoldingsFrame)
    (st : IndexState) (scope : List String) (h : invariant st) :
    invariant (scanBatch fetch st scope) := by
  unfold scanBatch
  by_cases hu : unscannedCodes st.scanned_funds scope = []
  · simpa [hu] using h
  · rw [if_neg hu]
    exact invariant_foldResults _ st h

theorem invariant_chunkedScan (fetch : String → Option HoldingsFrame)
    (chunks : List (List String)) :
    ∀ st, invariant st → invariant (chunkedScan fetch st chunks) := by
  induction chunks with
  | nil => intro st h; exact h
  | cons c rest ih =>
      intro st h
      exact ih _ (invariant_scanBatch fetch st c h)

/-! ## Claim C1: cross-consistency -/

/-- C1: starting from the empty snapshot, after any sequence of batch
scans, every fund with a forward entry `S` in `fund_stocks` appears in
`index[k]` for each `k ∈ S`, and conversely no key's fund list contains a
fund whose forward entry does not list that key. -/
theorem cross_consistency (fetch : String → Option HoldingsFrame)
    (batches : List (List String)) :
    crossConsistent (chunkedScan fetch emptyIndexState batches) :=
  (invariant_chunkedScan fetch batches emptyIndexState invariant_empty).1

/-! ## Claim C2: idempotent re-scan -/

/-- C2: folding the same fund twice with the same provider result (same
stock list and quarter label) leaves the reverse map membership-identical
to folding it once, leaves the forward maps `fund_stocks` and
`fund_quarters` literally identical, and no key's fund list ever holds a
duplicate fund id (the states being reached from a duplicate-free one). -/
theorem idempotent_rescan (st : IndexState) (f : String)
    (stocks : List Stock) (quarter : String) (hnd : nodupVals st.index) :
    (∀ k g,
      g ∈ indexFunds
        (applyFundResult (applyFundResult st f stocks quarter) f stocks
          quarter).index k ↔
      g ∈ indexFunds (applyFundResult st f stocks quarter).index k) ∧
    (applyFundResult (applyFundResult st f stocks quarter) f stocks
        quarter).fund_stocks =
      (applyFundResult st f stocks quarter).fund_stocks ∧
    (applyFundResult (applyFundResult st f stocks quarter) f stocks
        quarter).fund_quarters =
      (applyFundResult st f stocks quarter).fund_quarters ∧
    nodupVals (applyFundResult st f stocks quarter).index ∧
    nodupVals (applyFundResult (applyFundResult st f stocks quarter) f
      stocks quarter).index := by
  set st₁ := applyFundResult st f stocks quarter with hst₁
  have hnd₁ : nodupVals st₁.index := by
    rw [hst₁]
    cases hold : dictGet st.fund_stocks f with
    | none =>
        simp only [applyFundResult, hold]
        exact addStocks_nodup stocks hnd
    | some old =>
        simp only [applyFundResult, hold]
        exact addStocks_nodup stocks (cleanupOld_nodup old hnd)
  have hfs₁ : st₁.fund_stocks = dictSet st.fund_stocks f (keysOf stocks) := by
    rw [hst₁]
    cases hold : dictGet st.fund_stocks f with
    | none => simp only [applyFundResult, hold]; rw [addStocks_snd]
    | some old => simp only [applyFundResult, hold]; rw [addStocks_snd]
  have hfq₁ : st₁.fund_quarters = dictSet st.fund_quarters f quarter := by
    rw [hst₁]
    cases hold : dictGet st.fund_stocks f with
    | none => simp only [applyFundResult, hold]
    | some old => simp only [applyFundResult, hold]
  have hget₁ : dictGet st₁.fund_stocks f = some (keysOf stocks) := by
    rw [hfs₁, dictGet_set_self]
  have hself₁ : ∀ k, k ∈ keysOf stocks → f ∈ indexFunds st₁.index k := by
    intro k hk
    rw [hst₁]
    cases hold : dictGet st.fund_stocks f with
    | none =>
        simp only [applyFundResult, hold]
        exact (addStocks_mem_self_iff f stocks st.index k).mpr (Or.inl hk)
    | some old =>
        simp only [applyFundResult, hold]
        exact (addStocks_mem_self_iff f stocks _ k).mpr (Or.inl hk)
  have hidx₂ : (applyFundResult st₁ f stocks quarter).index =
      (addStocks (cleanupOld st₁.index f (keysOf stocks)) f stocks).1 := by
    simp only [applyFundResult, hget₁]
  refine ⟨?_, ?_, ?_, hnd₁, ?_⟩
  · intro k g
    rw [hidx₂]
    by_cases hg : g = f
    · subst hg
      constructor
      · intro hmem
        rcases (addStocks_mem_self_iff g stocks _ k).mp hmem with hk | hk
        · exact hself₁ k hk
        · exact cleanupOld_mem_self hk
      · intro hmem
        by_cases hk : k ∈ keysOf stocks
        · exact (addStocks_mem_self_iff g stocks _ k).mpr (Or.inl hk)
        · refine (addStocks_mem_self_iff g stocks _ k).mpr (Or.inr ?_)
          show g ∈ (dictGet (cleanupOld st₁.index g (keysOf stocks)) k).getD []
          rw [cleanupOld_get_of_not_mem hk]
          exact hmem
    · rw [addStocks_mem_other hg, cleanupOld_mem_other hg]
  · have hfs₂ : (applyFundResult st₁ f stocks quarter).fund_stocks =
        dictSet st₁.fund_stocks f (keysOf stocks) := by
      simp only [applyFundResult, hget₁]
      rw [addStocks_snd]
    rw [hfs₂, hfs₁, dictSet_set_same]
  · have hfq₂ : (applyFundResult st₁ f stocks quarter).fund_quarters =
        dictSet st₁.fund_quarters f quarter := by
      simp only [applyFundResult, hget₁]
    rw [hfq₂, hfq₁, dictSet_set_same]
  · rw [hidx₂]
    exact addStocks_nodup stocks (cleanupOld_nodup _ hnd₁)

/-- Witness for C2 at a concrete state, fund and stock list. -/
theorem idempotent_rescan_witness :
    nodupVals emptyIndexState.index ∧
    (∀ k g,
      g ∈ indexFunds
        (applyFundResult
          (applyFundResult emptyIndexState "000001"
            [⟨"600519", "贵州茅台"⟩] "2024年3季度") "000001"
          [⟨"600519", "贵州茅台"⟩] "2024年3季度").index k ↔
      g ∈ indexFunds
        (applyFundResult emptyIndexState "000001"
          [⟨"600519", "贵州茅台"⟩] "2024年3季度").index k) ∧
    (applyFundResult
        (applyFundResult emptyIndexState "000001"
          [⟨"600519", "贵州茅台"⟩] "2024年3季度") "000001"
        [⟨"600519", "贵州茅台"⟩] "2024年3季度").fund_stocks =
      (applyFundResult emptyIndexState "000001"
        [⟨"600519", "贵州茅台"⟩] "2024年3季度").fund_stocks ∧
    (applyFundResult
        (applyFundResult emptyIndexState "000001"
          [⟨"600519", "贵州茅台"⟩] "2024年3季度") "000001"
        [⟨"600519", "贵州茅台"⟩] "2024年3季度").fund_quarters =
      (applyFundResult emptyIndexState "000001"
        [⟨"600519", "贵州茅台"⟩] "2024年3季度").fund_quarters ∧
    nodupVals (applyFundResult emptyIndexState "000001"
      [⟨"600519", "贵州茅台"⟩] "2024年3季度").index ∧
    nodupVals (applyFundResult
      (applyFundResult emptyIndexState "000001"
        [⟨"600519", "贵州茅台"⟩] "2024年3季度") "000001"
      [⟨"600519", "贵州茅台"⟩] "2024年3季度").index :=
  have hnd : nodupVals emptyIndexState.index := fun k => by
    simp [emptyIndexState, indexFunds, dictGet]
  ⟨hnd, idempotent_rescan emptyIndexState "000001" [⟨"600519", "贵州茅台"⟩]
    "2024年3季度" hnd⟩

end InvestLab
